import Mathlib

/-!
Verification of `course_planner/run_agent.py`.

The program is a single linear script.  We shallowly embed the parts the
specification talks about:

* `execute_tool`   — `ComposioWrapper.execute_tool` (lines 79-113): the
  strategy-probing remote invoker and its result normalization;
* `parse_lessons`  — the lesson segmenter (lines 149-179);
* `sweep`          — the directory-sweep stage of local-path resolution
  (lines 329-343);
* `scheduleEvents` — the calendar scheduling loop (lines 390-403);
* `runPerItemWrites` — the per-lesson downstream-write loops (lines 375-410).

Python strings are modelled as `List Char`; Python values reachable in the
relevant code paths are modelled by the inductive `PyVal`.  Naive datetimes
are modelled as whole minutes (the script zeroes seconds and microseconds).
-/

/-- Python's `\s` / `str.strip` whitespace class, restricted to the ASCII
whitespace characters (the model does not cover non-ASCII whitespace). -/
def isSpace (c : Char) : Bool :=
  c = ' ' || c = '\t' || c = '\n' || c = '\r' || c = '\x0b' || c = '\x0c'

/-- Python `str.strip()`: drop leading and trailing whitespace. -/
def trimChars (cs : List Char) : List Char :=
  ((cs.dropWhile isSpace).reverse.dropWhile isSpace).reverse

/-- Split a character list at newline characters (models `str.splitlines()`
for texts whose line terminator is `\n`; the extra terminators Python
recognises are out of model).  The accumulator holds the current line,
reversed. -/
def splitLinesAux : List Char → List Char → List (List Char)
  | [], acc => [acc.reverse]
  | c :: cs, acc =>
      if c = '\n' then acc.reverse :: splitLinesAux cs []
      else splitLinesAux cs (c :: acc)

/-- `[ln.strip() for ln in text.splitlines() if ln.strip()]` (line 150). -/
def linesOf (text : List Char) : List (List Char) :=
  ((splitLinesAux text []).map trimChars).filter (fun l => !l.isEmpty)

/-- Python `" ".join(parts)`. -/
def joinSpace : List (List Char) → List Char
  | [] => []
  | [w] => w
  | w :: ws => w ++ ' ' :: joinSpace ws

/-- Worker for `pyWords`: the accumulator holds the current word, reversed. -/
def pyWordsAux : List Char → List Char → List (List Char)
  | [], acc => if acc.isEmpty then [] else [acc.reverse]
  | c :: cs, acc =>
      if isSpace c then
        if acc.isEmpty then pyWordsAux cs []
        else acc.reverse :: pyWordsAux cs []
      else pyWordsAux cs (c :: acc)

/-- Python `text.split()`: whitespace-delimited words, empties discarded
(line 170). -/
def pyWords (cs : List Char) : List (List Char) :=
  pyWordsAux cs []

/-! ## Python values

`PyVal` models the Python values that flow through `execute_tool`:
`None`, booleans, integers, strings, dicts, lists, and non-dict objects
carrying attributes. -/

inductive PyVal where
  | none
  | bool (b : Bool)
  | int (n : Int)
  | str (s : List Char)
  | dict (entries : List (List Char × PyVal))
  | list (xs : List PyVal)
  | obj (attrs : List (List Char × PyVal))

/-- Association-list lookup, first match wins (models `dict` key lookup;
Python dict keys are unique, so first-match is faithful). -/
def dGet : List (List Char × PyVal) → List Char → Option PyVal
  | [], _ => Option.none
  | (k, v) :: rest, key => if k = key then some v else dGet rest key

/-- `d.get(key, default)`. -/
def dGetD (d : List (List Char × PyVal)) (key : List Char) (dflt : PyVal) : PyVal :=
  (dGet d key).getD dflt

/-- `getattr(v, name, default)`: only `obj` values carry attributes named
`successful` / `data` / `error` in this model; every other value falls back
to the default, as the corresponding built-in Python types do. -/
def attrGetD (v : PyVal) (name : List Char) (dflt : PyVal) : PyVal :=
  match v with
  | .obj attrs => (dGet attrs name).getD dflt
  | _ => dflt

/-- Python truthiness (`bool(v)`) for the modelled values.  Plain objects
are truthy by default. -/
def truthy : PyVal → Bool
  | .none => false
  | .bool b => b
  | .int n => n != 0
  | .str s => !s.isEmpty
  | .dict d => !d.isEmpty
  | .list l => !l.isEmpty
  | .obj _ => true

/-! ## ToolInvoker: `ComposioWrapper.execute_tool` (lines 79-113) -/

/-- The dict keys used by the result envelope and the normalization. -/
def okKey : List Char := ['o', 'k']

def dataKey : List Char := ['d', 'a', 't', 'a']

def errorKey : List Char := ['e', 'r', 'r', 'o', 'r']

def successfulKey : List Char :=
  ['s', 'u', 'c', 'c', 'e', 's', 's', 'f', 'u', 'l']

/-- The literal result dict `{"ok": .., "data": .., "error": ..}` the
source builds at each return site, as an ordered association list. -/
def mkResult (ok dat err : PyVal) : List (List Char × PyVal) :=
  [(okKey, ok), (dataKey, dat), (errorKey, err)]

/-- Outcome of invoking one calling-convention strategy against the remote
client: it returns a value, raises a `TypeError` (signature mismatch,
carrying `str(te)`), or raises some other `Exception` (carrying `str(e)`
and its formatted traceback `tb`). -/
inductive CallOutcome where
  | ret (v : PyVal)
  | typeErr (msg : List Char)
  | exc (msg tb : List Char)

/-- Normalization of a strategy's return value (lines 96-105):
a dict is read with `resp.get`, anything else with `getattr`; note the
`getattr(resp, "data", None) or resp` on the non-dict branch. -/
def normalizeResp (resp : PyVal) : List (List Char × PyVal) :=
  match resp with
  | .dict entries =>
      mkResult (dGetD entries successfulKey (.bool true))
        (dGetD entries dataKey (.dict entries))
        ((dGet entries errorKey).getD .none)
  | _ =>
      let ok := attrGetD resp successfulKey (.bool true)
      let d0 := attrGetD resp dataKey .none
      let err := attrGetD resp errorKey .none
      mkResult ok (if truthy d0 then d0 else resp) err

/-- Rendering of `None` / a string for the diagnostic f-string. -/
def renderOpt : Option (List Char) → List Char
  | Option.none => ['N', 'o', 'n', 'e']
  | some m => m

/-- The message `f"All execute attempts failed. Last TypeError: {last_exc};
attempts: {attempts}"` (line 113).  The Python `repr` punctuation of the
attempts list is abbreviated to a plain concatenation; no claim depends on
the exact rendering, only on the message being a non-null string. -/
def allFailedMessage (lastExc : Option (List Char)) (attempts : List (List Char)) :
    List Char :=
  ('A' :: 'l' :: 'l' :: ' ' :: []) ++ renderOpt lastExc ++ joinSpace attempts

/-- The `for f in forms: try ... except TypeError ... except Exception ...`
loop of `execute_tool` (lines 93-113).  `lastExc` and `attempts` model the
`last_exc` variable and the `attempts` list. -/
def executeLoop : List CallOutcome → Option (List Char) → List (List Char) →
    List (List Char × PyVal)
  | [], lastExc, attempts =>
      mkResult (.bool false) .none (.str (allFailedMessage lastExc attempts))
  | .ret v :: _, _, _ => normalizeResp v
  | .typeErr m :: fs, _, attempts => executeLoop fs (some m) (attempts ++ [m])
  | .exc e tb :: _, _, _ =>
      mkResult (.bool false) .none (.str (e ++ '\n' :: tb))

/-- The six invocation strategies of lines 85-90, named after their calling
convention, in source order. -/
inductive StratId where
  | kwSlugUserArgs
  | kwSlugArgsUser
  | posSlugUserArgs
  | posSlugArgsUser
  | posUserSlugArgs
  | kwSlugArgsAlt

/-- The fixed order in which `execute_tool` tries the strategies. -/
def strategyOrder : List StratId :=
  [.kwSlugUserArgs, .kwSlugArgsUser, .posSlugUserArgs, .posSlugArgsUser,
   .posUserSlugArgs, .kwSlugArgsAlt]

/-- `ComposioWrapper.execute_tool` (lines 79-113).  The remote client (and
the wrapper's `user_id` state) is abstracted as `client`, giving the outcome
of invoking each strategy with the given slug and argument dict — exactly
what the six lambdas observe. -/
def execute_tool (client : StratId → List Char → List (List Char × PyVal) → CallOutcome)
    (slug : List Char) (args : List (List Char × PyVal)) :
    List (List Char × PyVal) :=
  executeLoop (strategyOrder.map (fun s => client s slug args)) Option.none []

/-! ## LessonSegmenter: `parse_lessons` (lines 149-179) -/

/-- The prefix part of the regex `^(Week\s*\d+)` (case-insensitive), used
both for header detection and for the continuation check at line 162.
Returns the matched group-1 text (original casing preserved) and the
remaining characters, or `none` when the line does not match. -/
def matchWeek (cs : List Char) : Option (List Char × List Char) :=
  match cs with
  | w :: e1 :: e2 :: k :: rest =>
      if w.toLower = 'w' && e1.toLower = 'e' && e2.toLower = 'e' && k.toLower = 'k' then
        let sp := rest.takeWhile isSpace
        let r1 := rest.dropWhile isSpace
        let ds := r1.takeWhile Char.isDigit
        let r2 := r1.dropWhile Char.isDigit
        if ds.isEmpty then Option.none
        else some (w :: e1 :: e2 :: k :: (sp ++ ds), r2)
      else Option.none
  | _ => Option.none

/-- `re.match(r'^(Week\s*\d+)', line, re.I)` succeeds (line 162). -/
def isHeaderLine (cs : List Char) : Bool :=
  (matchWeek cs).isSome

/-- The full header match `^(Week\s*\d+)\s*[:\-]?\s*(.*)` of line 154:
group 1 plus `m.group(2).strip()` (the regex consumes `\s*`, an optional
`:` or `-`, and `\s*` after group 1; group 2 is the remainder, which the
source then strips). -/
def headerRest (cs : List Char) : Option (List Char × List Char) :=
  match matchWeek cs with
  | Option.none => Option.none
  | some (h, r2) =>
      let r3 := r2.dropWhile isSpace
      let r4 := match r3 with
                | c :: cs2 => if c = ':' || c = '-' then cs2 else r3
                | [] => r3
      some (h, trimChars r4)

/-- Group 1 of the header match, `[]` on non-headers (helper for stating
which title a detected header contributes). -/
def titleOf (cs : List Char) : List Char :=
  match headerRest cs with
  | some (h, _) => h
  | Option.none => []

/-- The header-scanning `while` loop of lines 152-168: at a header line,
collect the following non-header lines as the body and jump to the next
header; at a non-header line, advance by one. -/
def parseHeaders : List (List Char) → List (List Char × List Char)
  | [] => []
  | l :: rest =>
      match headerRest l with
      | some (h, rem) =>
          let body := rest.takeWhile (fun x => !(isHeaderLine x))
          let after := rest.dropWhile (fun x => !(isHeaderLine x))
          (h, trimChars (joinSpace ((if rem.isEmpty then [] else [rem]) ++ body)))
            :: parseHeaders after
      | Option.none => parseHeaders rest
termination_by ls => ls.length
decreasing_by
  · simp only [List.length_cons]
    refine Nat.lt_succ_of_le ?_
    exact (List.dropWhile_sublist _).length_le
  · simp

/-- `f"Week {k+1}"` with `n = k+1` (line 178). -/
def weekLabel (n : Nat) : List Char :=
  ('W' :: 'e' :: 'e' :: 'k' :: ' ' :: []) ++ Nat.toDigits 10 n

/-- The equal-chunk fallback loop of lines 174-178: `chunk` words per
record (`max(total // max_lessons, 1)`), the last record absorbing the
remainder (`end = total` for the last `k`). -/
def fallbackLessons (words : List (List Char)) (maxLessons : Nat) :
    List (List Char × List Char) :=
  let total := words.length
  let chunk := max (total / maxLessons) 1
  (List.range maxLessons).map (fun k =>
    let start := k * chunk
    let stop := if k < maxLessons - 1 then start + chunk else total
    (weekLabel (k + 1), joinSpace ((words.drop start).take (stop - start))))

/-- `parse_lessons(text, max_lessons)` (lines 149-179).  When no header is
found, the equal-chunk fallback of lines 169-178 runs (the source would
raise `ZeroDivisionError` for `max_lessons = 0`; Lean's `Nat` division by
zero yields 0 there — the spec makes `max_count ≥ 1` a precondition). -/
def parse_lessons (text : List Char) (maxLessons : Nat) :
    List (List Char × List Char) :=
  let lessons := parseHeaders (linesOf text)
  if lessons.isEmpty then
    let words := pyWords text
    if words.length = 0 then []
    else (fallbackLessons words maxLessons).take maxLessons
  else lessons.take maxLessons

/-! ## ArtifactLocator, stage 3: the directory sweep (lines 329-343) -/

/-- `fname.lower().endswith(".pdf")` (ASCII lowercasing). -/
def lowerPdfSuffix (f : List Char) : Bool :=
  List.isSuffixOf ['.', 'p', 'd', 'f'] (f.map Char.toLower)

/-- `os.path.join(root, fname)`; `os.path.abspath` is the identity in this
model (all walk roots are taken as already absolute). -/
def joinPath (root f : List Char) : List Char :=
  root ++ '/' :: f

/-- The inner `for fname in files_in_dir` loop (lines 333-341): an exact
filename match is taken and breaks the loop; otherwise the first `.pdf`
file is kept only if nothing was kept yet (`if not local_path`). -/
def pickInDir (expected root : List Char) :
    List (List Char) → Option (List Char) → Option (List Char)
  | [], acc => acc
  | f :: fs, acc =>
      if f = expected then some (joinPath root f)
      else if lowerPdfSuffix f then
        pickInDir expected root fs
          (match acc with
           | Option.none => some (joinPath root f)
           | some p => some p)
      else pickInDir expected root fs acc

/-- The outer `for root, dirs, files_in_dir in os.walk(...)` loop
(lines 332-343): the walk is modelled as the list of `(root, files)` pairs
`os.walk` yields, in order; the outer loop breaks as soon as a directory
set `local_path` (so each directory is entered with `local_path` unset). -/
def sweep (expected : List Char) :
    List (List Char × List (List Char)) → Option (List Char)
  | [] => Option.none
  | (root, files) :: rest =>
      match pickInDir expected root files Option.none with
      | some p => some p
      | Option.none => sweep expected rest

/-! ## ScheduleProjector: the calendar loop (lines 390-403) -/

/-- Minutes in a day. -/
def minutesPerDay : Nat := 1440

/-- `datetime.timedelta(weeks=1)` in minutes. -/
def weekMinutes : Nat := 7 * 24 * 60

/-- `dt0.replace(hour=hh, minute=mm, second=0, microsecond=0)` (line 398)
on a naive datetime modelled as whole minutes since an epoch. -/
def replaceTime (t hh mm : Nat) : Nat :=
  (t / minutesPerDay) * minutesPerDay + hh * 60 + mm

/-- The scheduling loop of lines 401-402: lesson `i` (0-indexed) is paired
with `dt0 + timedelta(weeks=i)`. -/
def scheduleEvents (anchor : Nat) (lessons : List (List Char × List Char)) :
    List ((List Char × List Char) × Nat) :=
  lessons.enum.map (fun p => (p.2, anchor + p.1 * weekMinutes))

/-! ## Per-item downstream writes (lines 375-410)

Both the Notion-row loop (lines 378-385) and the calendar loop
(lines 401-410) call the tool once per lesson and, on `ok` false, only log
an error before continuing with the next lesson; neither loop breaks or
returns early.  `call` abstracts the downstream call made for one lesson. -/
def runPerItemWrites (call : List Char × List Char → List (List Char × PyVal)) :
    List (List Char × List Char) →
    List ((List Char × List Char) × List (List Char × PyVal))
  | [] => []
  | l :: ls => (l, call l) :: runPerItemWrites call ls

/-! ## Derived notions used in the statements -/

/-- The `ToolCallResult` invariant of the spec, on a result dict:
`ok == false` iff `error != null`. -/
def resInv (r : List (List Char × PyVal)) : Prop :=
  dGet r okKey = some (PyVal.bool false) ↔ ¬ dGet r errorKey = some PyVal.none

/-- A remote client whose every strategy returns the dict
`{"successful": False}` (no `error` key): a remote failure report with no
message. -/
def clientC1 (_ : StratId) (_ : List Char) (_ : List (List Char × PyVal)) :
    CallOutcome :=
  CallOutcome.ret (PyVal.dict [(successfulKey, PyVal.bool false)])

/-- A non-dict response object whose `data` attribute holds an empty list
(a falsy, but present, payload). -/
def respC4 : PyVal := PyVal.obj [(dataKey, PyVal.list [])]

/-- A remote client whose every strategy returns `respC4`. -/
def clientC4 (_ : StratId) (_ : List Char) (_ : List (List Char × PyVal)) :
    CallOutcome :=
  CallOutcome.ret respC4

/-- A directory walk whose first directory holds a `.pdf` that is not the
expected file and whose second directory holds the exactly-named file. -/
def walkC8 : List (List Char × List (List Char)) :=
  [("/downloads/a".toList, ["other.pdf".toList]),
   ("/downloads/b".toList, ["syllabus.pdf".toList])]

/-! # Theorems

## ToolInvoker lemmas -/

theorem dGet_mkResult_ok (o d e : PyVal) :
    dGet (mkResult o d e) okKey = some o := rfl

theorem dGet_mkResult_data (o d e : PyVal) :
    dGet (mkResult o d e) dataKey = some d := rfl

theorem dGet_mkResult_err (o d e : PyVal) :
    dGet (mkResult o d e) errorKey = some e := rfl

/-- Strategies that raise `TypeError` are skipped: the loop lands on the
first strategy that returns and normalizes its value, whatever comes
after. -/
theorem executeLoop_typeErrs_ret (v : PyVal) :
    ∀ ts : List CallOutcome, (∀ t ∈ ts, ∃ m, t = CallOutcome.typeErr m) →
      ∀ (rest : List CallOutcome) (le : Option (List Char)) (ats : List (List Char)),
        executeLoop (ts ++ CallOutcome.ret v :: rest) le ats = normalizeResp v := by
  intro ts
  induction ts with
  | nil => intro _ rest le ats; rfl
  | cons t ts ih =>
      intro h rest le ats
      obtain ⟨m, rfl⟩ := h t (List.mem_cons_self t ts)
      exact ih (fun x hx => h x (List.mem_cons_of_mem _ hx)) rest _ _

/-- Every branch of the loop returns the three-key envelope. -/
theorem map_fst_normalizeResp (resp : PyVal) :
    (normalizeResp resp).map Prod.fst = [okKey, dataKey, errorKey] := by
  cases resp <;> rfl

theorem map_fst_executeLoop :
    ∀ (fs : List CallOutcome) (le : Option (List Char)) (ats : List (List Char)),
      (executeLoop fs le ats).map Prod.fst = [okKey, dataKey, errorKey] := by
  intro fs
  induction fs with
  | nil => intro le ats; rfl
  | cons f fs ih =>
      intro le ats
      cases f with
      | ret v => exact map_fst_normalizeResp v
      | typeErr m => exact ih _ _
      | exc e tb => rfl

/-- The `ok`/`error` invariant holds for every loop result, provided every
value a strategy can return normalizes to facets satisfying it; the two
failure paths satisfy it unconditionally. -/
theorem resInv_executeLoop :
    ∀ (fs : List CallOutcome) (le : Option (List Char)) (ats : List (List Char)),
      (∀ v, CallOutcome.ret v ∈ fs → resInv (normalizeResp v)) →
      resInv (executeLoop fs le ats) := by
  intro fs
  induction fs with
  | nil =>
      intro le ats _
      exact iff_of_true rfl (fun he => PyVal.noConfusion (Option.some.inj he))
  | cons f fs ih =>
      intro le ats h
      cases f with
      | ret v => exact h v (List.mem_cons_self _ _)
      | typeErr m => exact ih _ _ (fun v hv => h v (List.mem_cons_of_mem _ hv))
      | exc e tb =>
          exact iff_of_true rfl (fun he => PyVal.noConfusion (Option.some.inj he))

/-! ## Claims about `execute_tool` -/

/-- C10: for every tool slug, argument mapping, and behaviour of the
underlying client call (returning any modelled value, or raising a
`TypeError` or any other `Exception`), `execute_tool` returns a dict with
exactly the keys `ok`, `data`, `error`, in that order.  "Never raises" is
reflected in the model by `execute_tool` being a total function over all
modelled client behaviours: both `except` clauses of the source cover all
exceptions a strategy can raise. -/
theorem claim_C10
    (client : StratId → List Char → List (List Char × PyVal) → CallOutcome)
    (slug : List Char) (args : List (List Char × PyVal)) :
    (execute_tool client slug args).map Prod.fst = [okKey, dataKey, errorKey] :=
  map_fst_executeLoop _ _ _

/-- C1, counterexample: the claimed invariant `ok == false` iff
`error != null` fails on the result `execute_tool` returns when the remote
response is the dict `{"successful": False}` — the normalization copies
`successful` and `error` independently, yielding `ok = False` with
`error = None`. -/
theorem claim_C1_counterexample :
    ¬ resInv (execute_tool clientC1 ['T'] []) := by
  intro h
  have h1 : dGet (execute_tool clientC1 ['T'] []) okKey
      = some (PyVal.bool false) := rfl
  have h2 : dGet (execute_tool clientC1 ['T'] []) errorKey
      = some PyVal.none := rfl
  exact (h.mp h1) h2

/-- C1, amended: results produced by the failure paths of `execute_tool`
(a non-`TypeError` exception, or exhaustion of all strategies) always have
`ok = False` and a non-null `error`; a result normalized from a strategy's
response satisfies the invariant `ok == false` iff `error != null`
whenever the response's own `successful`/`error` facets satisfy it —
the normalization copies both facets without enforcing the invariant. -/
theorem claim_C1
    (client : StratId → List Char → List (List Char × PyVal) → CallOutcome)
    (slug : List Char) (args : List (List Char × PyVal))
    (h : ∀ s v, client s slug args = CallOutcome.ret v →
      resInv (normalizeResp v)) :
    resInv (execute_tool client slug args) := by
  apply resInv_executeLoop
  intro v hv
  rw [List.mem_map] at hv
  obtain ⟨s, _, hsv⟩ := hv
  exact h s v hsv

theorem claim_C1_witness :
    resInv (execute_tool (fun _ _ _ => CallOutcome.typeErr ['m']) ['T'] []) :=
  claim_C1 _ ['T'] [] (fun _ _ hv => CallOutcome.noConfusion hv)

/-- C2: if the first `k` strategies raise `TypeError` (signature mismatch)
and strategy `k+1` returns a value, `execute_tool` returns the normalized
result of strategy `k+1`; the result is the same whatever the strategies
after `k+1` would do, i.e. they are never attempted. -/
theorem claim_C2
    (client : StratId → List Char → List (List Char × PyVal) → CallOutcome)
    (slug : List Char) (args : List (List Char × PyVal))
    (ts rest : List CallOutcome) (v : PyVal)
    (hsplit : strategyOrder.map (fun s => client s slug args)
      = ts ++ CallOutcome.ret v :: rest)
    (hts : ∀ t ∈ ts, ∃ m, t = CallOutcome.typeErr m) :
    execute_tool client slug args = normalizeResp v ∧
    ∀ (client2 : StratId → List Char → List (List Char × PyVal) → CallOutcome)
      (rest2 : List CallOutcome),
      strategyOrder.map (fun s => client2 s slug args)
        = ts ++ CallOutcome.ret v :: rest2 →
      execute_tool client2 slug args = normalizeResp v := by
  constructor
  · unfold execute_tool
    rw [hsplit]
    exact executeLoop_typeErrs_ret v ts hts rest _ _
  · intro client2 rest2 hsplit2
    unfold execute_tool
    rw [hsplit2]
    exact executeLoop_typeErrs_ret v ts hts rest2 _ _

theorem claim_C2_witness :
    execute_tool (fun s _ _ => match s with
      | StratId.kwSlugUserArgs => CallOutcome.typeErr ['m']
      | _ => CallOutcome.ret (PyVal.int 7)) ['T'] []
      = normalizeResp (PyVal.int 7) :=
  (claim_C2 (fun s _ _ => match s with
      | StratId.kwSlugUserArgs => CallOutcome.typeErr ['m']
      | _ => CallOutcome.ret (PyVal.int 7)) ['T'] []
    [CallOutcome.typeErr ['m']]
    (List.replicate 4 (CallOutcome.ret (PyVal.int 7))) (PyVal.int 7)
    rfl (fun t ht => ⟨['m'], by simpa using ht⟩)).1

/-- C3: if the first-attempted strategy raises a non-`TypeError` exception,
`execute_tool` returns `ok: False` immediately with the error message
`f"{e}\n{tb}"` containing the diagnostic trace, and the result does not
depend on any later strategy (none is attempted). -/
theorem claim_C3
    (client : StratId → List Char → List (List Char × PyVal) → CallOutcome)
    (slug : List Char) (args : List (List Char × PyVal)) (e tb : List Char)
    (h : client StratId.kwSlugUserArgs slug args = CallOutcome.exc e tb) :
    execute_tool client slug args
      = mkResult (PyVal.bool false) PyVal.none (PyVal.str (e ++ '\n' :: tb)) ∧
    (∀ client2 : StratId → List Char → List (List Char × PyVal) → CallOutcome,
      client2 StratId.kwSlugUserArgs slug args = CallOutcome.exc e tb →
      execute_tool client2 slug args = execute_tool client slug args) ∧
    (∃ pre, e ++ '\n' :: tb = pre ++ tb) := by
  have key : ∀ c : StratId → List Char → List (List Char × PyVal) → CallOutcome,
      c StratId.kwSlugUserArgs slug args = CallOutcome.exc e tb →
      execute_tool c slug args
        = mkResult (PyVal.bool false) PyVal.none (PyVal.str (e ++ '\n' :: tb)) := by
    intro c hc
    unfold execute_tool strategyOrder
    simp only [List.map_cons, hc]
    rfl
  exact ⟨key client h,
    fun c2 h2 => (key c2 h2).trans (key client h).symm,
    ⟨e ++ ['\n'], by simp⟩⟩

theorem claim_C3_witness :
    execute_tool (fun _ _ _ => CallOutcome.exc ['e'] ['t']) ['T'] []
      = mkResult (PyVal.bool false) PyVal.none
          (PyVal.str ('e' :: '\n' :: 't' :: [])) :=
  (claim_C3 (fun _ _ _ => CallOutcome.exc ['e'] ['t']) ['T'] [] ['e'] ['t'] rfl).1

/-- C4, counterexample: for the non-dict response `respC4`, whose `data`
attribute is present but holds the falsy value `[]`, the data facet of the
result is the whole response rather than the attribute value: the source
computes `getattr(resp, "data", None) or resp`, so a falsy attribute value
also falls back to the whole response, unlike the mapping branch where
only a missing key triggers the default. -/
theorem claim_C4_counterexample :
    dGet (execute_tool clientC4 ['T'] []) dataKey = some respC4 ∧
    ¬ dGet (execute_tool clientC4 ['T'] []) dataKey = some (PyVal.list []) := by
  refine ⟨rfl, fun h => ?_⟩
  have h2 : some respC4 = some (PyVal.list []) := h
  exact PyVal.noConfusion (Option.some.inj h2)

/-- Helper for C4: the data facet of a normalized non-dict response. -/
theorem normalizeResp_data_nondict (resp : PyVal)
    (hnd : ∀ entries, resp ≠ PyVal.dict entries) :
    dGet (normalizeResp resp) dataKey
      = some (if truthy (attrGetD resp dataKey PyVal.none)
          then attrGetD resp dataKey PyVal.none else resp) := by
  cases resp with
  | dict entries => exact absurd rfl (hnd entries)
  | none => rfl
  | bool b => rfl
  | int n => rfl
  | str s => rfl
  | list xs => rfl
  | obj attrs => rfl

/-- C4, amended: for a response that is not a mapping, the result's data
facet is the value of the `data` attribute when that attribute is present
with a truthy value; when the attribute is absent or its value is falsy,
the whole response is used as data (a different defaulting rule than for
mappings, where only absence of the key triggers the default). -/
theorem claim_C4
    (client : StratId → List Char → List (List Char × PyVal) → CallOutcome)
    (slug : List Char) (args : List (List Char × PyVal)) (resp : PyVal)
    (hret : client StratId.kwSlugUserArgs slug args = CallOutcome.ret resp)
    (hnd : ∀ entries, resp ≠ PyVal.dict entries) :
    dGet (execute_tool client slug args) dataKey
      = some (if truthy (attrGetD resp dataKey PyVal.none)
          then attrGetD resp dataKey PyVal.none else resp) := by
  have h1 : execute_tool client slug args = normalizeResp resp := by
    unfold execute_tool strategyOrder
    simp only [List.map_cons, hret]
    rfl
  rw [h1]
  exact normalizeResp_data_nondict resp hnd

theorem claim_C4_witness :
    dGet (execute_tool
        (fun _ _ _ => CallOutcome.ret (PyVal.obj [(dataKey, PyVal.int 5)]))
        ['T'] []) dataKey
      = some (PyVal.int 5) :=
  claim_C4 (fun _ _ _ => CallOutcome.ret (PyVal.obj [(dataKey, PyVal.int 5)]))
    ['T'] [] (PyVal.obj [(dataKey, PyVal.int 5)]) rfl
    (fun _ he => PyVal.noConfusion he)

/-! ## LessonSegmenter lemmas -/

theorem isHeaderLine_iff (l : List Char) :
    isHeaderLine l = true ↔ ∃ p, headerRest l = some p := by
  cases hm : matchWeek l with
  | none => simp [isHeaderLine, headerRest, hm]
  | some p => simp [isHeaderLine, headerRest, hm]

theorem titleOf_eq {l h rem : List Char} (hl : headerRest l = some (h, rem)) :
    titleOf l = h := by
  simp [titleOf, hl]

theorem filter_header_takeWhile (rest : List (List Char)) :
    (rest.takeWhile (fun x => !isHeaderLine x)).filter isHeaderLine = [] := by
  rw [List.filter_eq_nil_iff]
  intro a ha
  have h2 := List.mem_takeWhile_imp ha
  simp only [Bool.not_eq_true'] at h2
  simp [h2]

theorem filter_header_dropWhile (rest : List (List Char)) :
    rest.filter isHeaderLine
      = (rest.dropWhile (fun x => !isHeaderLine x)).filter isHeaderLine := by
  conv_lhs =>
    rw [← List.takeWhile_append_dropWhile (p := fun x => !isHeaderLine x) (l := rest)]
  rw [List.filter_append, filter_header_takeWhile, List.nil_append]

/-- Every detected header line contributes exactly one record, in order:
the titles of `parseHeaders` are the group-1 matches of the header lines,
in the order those lines occur. -/
theorem parseHeaders_map_fst (ls : List (List Char)) :
    (parseHeaders ls).map Prod.fst = (ls.filter isHeaderLine).map titleOf := by
  suffices H : ∀ n (ls : List (List Char)), ls.length ≤ n →
      (parseHeaders ls).map Prod.fst = (ls.filter isHeaderLine).map titleOf from
    H ls.length ls le_rfl
  intro n
  induction n with
  | zero =>
      intro ls hls
      cases ls with
      | nil => simp [parseHeaders]
      | cons l rest => simp at hls
  | succ n ih =>
      intro ls hls
      cases ls with
      | nil => simp [parseHeaders]
      | cons l rest =>
          cases hhr : headerRest l with
          | some p =>
              obtain ⟨h, rem⟩ := p
              have hh : isHeaderLine l = true := (isHeaderLine_iff l).mpr ⟨_, hhr⟩
              have hlen : (rest.dropWhile (fun x => !isHeaderLine x)).length ≤ n := by
                have h1 : (rest.dropWhile (fun x => !isHeaderLine x)).length
                    ≤ rest.length := (List.dropWhile_sublist _).length_le
                simp only [List.length_cons] at hls
                omega
              simp only [parseHeaders, hhr]
              rw [List.map_cons, ih _ hlen, List.filter_cons_of_pos hh,
                List.map_cons, titleOf_eq hhr, filter_header_dropWhile rest]
          | none =>
              have hh : isHeaderLine l = false := by
                cases hb : isHeaderLine l with
                | false => rfl
                | true =>
                    obtain ⟨p, hp⟩ := (isHeaderLine_iff l).mp hb
                    rw [hp] at hhr
                    exact Option.noConfusion hhr
              have hlen : rest.length ≤ n := by
                simp only [List.length_cons] at hls
                omega
              simp only [parseHeaders, hhr]
              rw [ih _ hlen, List.filter_cons_of_neg (by simp [hh])]

theorem parseHeaders_eq_nil {ls : List (List Char)}
    (h : ∀ l ∈ ls, isHeaderLine l = false) : parseHeaders ls = [] := by
  have h1 := parseHeaders_map_fst ls
  have h2 : ls.filter isHeaderLine = [] := by
    rw [List.filter_eq_nil_iff]
    intro a ha
    simp [h a ha]
  rw [h2] at h1
  simpa using List.map_eq_nil_iff.mp h1

theorem parseHeaders_ne_nil {ls : List (List Char)} {l : List Char}
    (hl : l ∈ ls) (hh : isHeaderLine l = true) : parseHeaders ls ≠ [] := by
  intro hnil
  have h1 := parseHeaders_map_fst ls
  rw [hnil] at h1
  have h2 : ls.filter isHeaderLine = [] := by
    cases hf : ls.filter isHeaderLine with
    | nil => rfl
    | cons a as =>
        rw [hf, List.map_cons] at h1
        exact List.noConfusion h1
  have h3 := List.filter_eq_nil_iff.mp h2 l hl
  simp [hh] at h3

/-- C5: for every text with at least one "Week N" header line,
`parse_lessons` returns the header-derived records truncated to at most
`max_lessons` (so the equal-chunk fallback branch is not taken), and the
header-derived records are one per detected header, in the order the
headers appear in the text. -/
theorem claim_C5 (text : List Char) (m : Nat)
    (h : ∃ l ∈ linesOf text, isHeaderLine l = true) :
    parse_lessons text m = (parseHeaders (linesOf text)).take m ∧
    (parseHeaders (linesOf text)).map Prod.fst
      = ((linesOf text).filter isHeaderLine).map titleOf ∧
    (parse_lessons text m).length ≤ m := by
  obtain ⟨l, hl, hh⟩ := h
  have hne : parseHeaders (linesOf text) ≠ [] := parseHeaders_ne_nil hl hh
  have hbranch : parse_lessons text m = (parseHeaders (linesOf text)).take m := by
    simp [parse_lessons, hne]
  refine ⟨hbranch, parseHeaders_map_fst _, ?_⟩
  rw [hbranch]
  exact List.length_take_le _ _

theorem claim_C5_witness :
    (∃ l ∈ linesOf ("Week 1: Intro\nHello\nWeek 2: Loops\nWorld".toList),
      isHeaderLine l = true) ∧
    parse_lessons ("Week 1: Intro\nHello\nWeek 2: Loops\nWorld".toList) 12
      = (parseHeaders
          (linesOf ("Week 1: Intro\nHello\nWeek 2: Loops\nWorld".toList))).take 12 :=
  ⟨by decide, (claim_C5 _ 12 (by decide)).1⟩

/-! ## Equal-chunk fallback lemmas -/

theorem pyWordsAux_word (w : List Char) (hw : ∀ c ∈ w, isSpace c = false) :
    ∀ (cs acc : List Char),
      pyWordsAux (w ++ cs) acc = pyWordsAux cs (w.reverse ++ acc) := by
  induction w with
  | nil => intro cs acc; rfl
  | cons c w ih =>
      intro cs acc
      have hc : isSpace c = false := hw c (List.mem_cons_self _ _)
      have step : pyWordsAux ((c :: w) ++ cs) acc
          = pyWordsAux (w ++ cs) (c :: acc) := by
        show pyWordsAux (c :: (w ++ cs)) acc = pyWordsAux (w ++ cs) (c :: acc)
        simp [pyWordsAux, hc]
      rw [step, ih (fun x hx => hw x (List.mem_cons_of_mem _ hx))]
      simp

theorem pyWords_joinSpace (ws : List (List Char))
    (h : ∀ w ∈ ws, w ≠ [] ∧ ∀ c ∈ w, isSpace c = false) :
    pyWords (joinSpace ws) = ws := by
  induction ws with
  | nil => rfl
  | cons w ws ih =>
      obtain ⟨hw, hwc⟩ := h w (List.mem_cons_self _ _)
      have hrev : (w.reverse).isEmpty = false := by
        simp [List.isEmpty_iff, hw]
      cases ws with
      | nil =>
          show pyWordsAux (joinSpace [w]) [] = [w]
          rw [show joinSpace [w] = w from rfl, ← List.append_nil w,
            pyWordsAux_word w hwc [] []]
          simp [pyWordsAux, hrev]
      | cons x xs =>
          show pyWordsAux (joinSpace (w :: x :: xs)) [] = w :: x :: xs
          rw [show joinSpace (w :: x :: xs) = w ++ ' ' :: joinSpace (x :: xs)
              from rfl,
            pyWordsAux_word w hwc (' ' :: joinSpace (x :: xs)) []]
          rw [List.append_nil]
          have hstep : pyWordsAux (' ' :: joinSpace (x :: xs)) w.reverse
              = w.reverse.reverse :: pyWordsAux (joinSpace (x :: xs)) [] := by
            simp only [pyWordsAux, hrev]
            norm_num [isSpace]
          rw [hstep, List.reverse_reverse]
          have ihh := ih (fun u hu => h u (List.mem_cons_of_mem _ hu))
          rw [show pyWords (joinSpace (x :: xs))
              = pyWordsAux (joinSpace (x :: xs)) [] from rfl] at ihh
          rw [ihh]

theorem pyWordsAux_wf :
    ∀ (cs acc : List Char), (∀ c ∈ acc, isSpace c = false) →
      ∀ w ∈ pyWordsAux cs acc, w ≠ [] ∧ ∀ c ∈ w, isSpace c = false := by
  intro cs
  induction cs with
  | nil =>
      intro acc hacc w hw
      cases hE : acc.isEmpty with
      | false =>
          simp only [pyWordsAux, hE] at hw
          simp only [Bool.false_eq_true, if_false, List.mem_singleton] at hw
          subst hw
          refine ⟨?_, ?_⟩
          · intro h0
            have hnil : acc = [] := by simpa using congrArg List.reverse h0
            rw [hnil] at hE
            simp at hE
          · intro c hc
            exact hacc c (List.mem_reverse.mp hc)
      | true =>
          simp [pyWordsAux, hE] at hw
  | cons c cs ih =>
      intro acc hacc w hw
      cases hc : isSpace c with
      | false =>
          simp only [pyWordsAux, hc, Bool.false_eq_true, if_false] at hw
          refine ih (c :: acc) ?_ w hw
          intro x hx
          rcases List.mem_cons.mp hx with h1 | h2
          · rw [h1]; exact hc
          · exact hacc x h2
      | true =>
          cases hE : acc.isEmpty with
          | false =>
              simp only [pyWordsAux, hc, hE, if_true, Bool.false_eq_true,
                if_false] at hw
              rcases List.mem_cons.mp hw with h1 | h2
              · subst h1
                refine ⟨?_, ?_⟩
                · intro h0
                  have hnil : acc = [] := by simpa using congrArg List.reverse h0
                  rw [hnil] at hE
                  simp at hE
                · intro x hx
                  exact hacc x (List.mem_reverse.mp hx)
              · exact ih [] (fun x hx => absurd hx (List.not_mem_nil x)) w h2
          | true =>
              simp only [pyWordsAux, hc, hE, if_true] at hw
              exact ih [] (fun x hx => absurd hx (List.not_mem_nil x)) w hw

theorem flatten_chunks_take (c : Nat) (l : List α) :
    ∀ j : Nat,
      ((List.range j).map (fun k => (l.drop (k * c)).take c)).flatten
        = l.take (j * c) := by
  intro j
  induction j with
  | zero => simp
  | succ j ih =>
      rw [List.range_succ, List.map_append, List.flatten_append, ih]
      simp only [List.map_cons, List.map_nil, List.flatten_cons,
        List.flatten_nil, List.append_nil]
      rw [Nat.succ_mul, List.take_add]

/-- Concatenating the chunk slices reproduces the word list: the first
`m - 1` chunks tile `[0, (m-1)*chunk)` and the last chunk is the whole
remainder. -/
theorem flatten_chunks (m c : Nat) (hm : 1 ≤ m) (l : List α) :
    ((List.range m).map (fun k =>
        (l.drop (k * c)).take
          ((if k < m - 1 then k * c + c else l.length) - k * c))).flatten
      = l := by
  obtain ⟨mm, rfl⟩ : ∃ mm, m = mm + 1 := ⟨m - 1, by omega⟩
  rw [List.range_succ, List.map_append, List.flatten_append]
  have h1 : (List.range mm).map (fun k =>
      (l.drop (k * c)).take
        ((if k < mm + 1 - 1 then k * c + c else l.length) - k * c))
      = (List.range mm).map (fun k => (l.drop (k * c)).take c) := by
    apply List.map_congr_left
    intro k hk
    have hk2 : k < mm + 1 - 1 := by simpa using List.mem_range.mp hk
    rw [if_pos hk2]
    congr 1
    omega
  rw [h1, flatten_chunks_take]
  simp only [List.map_cons, List.map_nil, List.flatten_cons,
    List.flatten_nil, List.append_nil]
  have h2 : ¬ mm < mm + 1 - 1 := by omega
  rw [if_neg h2]
  have h3 : (l.drop (mm * c)).take (l.length - mm * c) = l.drop (mm * c) := by
    apply List.take_of_length_le
    rw [List.length_drop]
  rw [h3, List.take_append_drop]

theorem length_fallbackLessons (words : List (List Char)) (m : Nat) :
    (fallbackLessons words m).length = m := by
  unfold fallbackLessons
  rw [List.length_map, List.length_range]

theorem map_fst_fallbackLessons (words : List (List Char)) (m : Nat) :
    (fallbackLessons words m).map Prod.fst
      = (List.range m).map (fun k => weekLabel (k + 1)) := by
  unfold fallbackLessons
  rw [List.map_map]
  apply List.map_congr_left
  intro k _
  rfl

theorem flatten_pyWords_fallbackLessons (words : List (List Char)) (m : Nat)
    (hm : 1 ≤ m)
    (hwf : ∀ w ∈ words, w ≠ [] ∧ ∀ c ∈ w, isSpace c = false) :
    ((fallbackLessons words m).map (fun r => pyWords r.2)).flatten = words := by
  unfold fallbackLessons
  rw [List.map_map]
  have hcong : (List.range m).map ((fun r : List Char × List Char => pyWords r.2) ∘
      (fun k =>
        let start := k * max (words.length / m) 1
        let stop := if k < m - 1 then start + max (words.length / m) 1
          else words.length
        (weekLabel (k + 1), joinSpace ((words.drop start).take (stop - start)))))
      = (List.range m).map (fun k =>
          (words.drop (k * max (words.length / m) 1)).take
            ((if k < m - 1 then k * max (words.length / m) 1 + max (words.length / m) 1
              else words.length) - k * max (words.length / m) 1)) := by
    apply List.map_congr_left
    intro k _
    show pyWords (joinSpace ((words.drop (k * max (words.length / m) 1)).take
        ((if k < m - 1 then k * max (words.length / m) 1 + max (words.length / m) 1
          else words.length) - k * max (words.length / m) 1))) = _
    apply pyWords_joinSpace
    intro w hwmem
    exact hwf w (List.mem_of_mem_drop (List.mem_of_mem_take hwmem))
  rw [hcong]
  exact flatten_chunks m (max (words.length / m) 1) hm words

/-- C6: for every text with no "Week N" header line and at least one word,
and `max_lessons ≥ 1`, the fallback produces exactly `max_lessons` records,
labeled "Week k+1" for chunk `k` in order, and the records' bodies, split
back into words and concatenated in order, reconstruct the original word
sequence with no word dropped or duplicated (the final chunk absorbing the
remainder). -/
theorem claim_C6 (text : List Char) (m : Nat) (hm : 1 ≤ m)
    (hnh : ∀ l ∈ linesOf text, isHeaderLine l = false)
    (hw : pyWords text ≠ []) :
    (parse_lessons text m).length = m ∧
    (parse_lessons text m).map Prod.fst
      = (List.range m).map (fun k => weekLabel (k + 1)) ∧
    ((parse_lessons text m).map (fun r => pyWords r.2)).flatten
      = pyWords text := by
  have hph : parseHeaders (linesOf text) = [] := parseHeaders_eq_nil hnh
  have htot : ¬ (pyWords text).length = 0 := by
    intro h0
    exact hw (List.eq_nil_of_length_eq_zero h0)
  have hbranch : parse_lessons text m
      = (fallbackLessons (pyWords text) m).take m := by
    simp [parse_lessons, hph, htot]
  have htake : (fallbackLessons (pyWords text) m).take m
      = fallbackLessons (pyWords text) m :=
    List.take_of_length_le (le_of_eq (length_fallbackLessons _ _))
  have hwf : ∀ w ∈ pyWords text, w ≠ [] ∧ ∀ c ∈ w, isSpace c = false :=
    fun w hw2 =>
      pyWordsAux_wf text [] (fun c hc => absurd hc (List.not_mem_nil c)) w hw2
  refine ⟨?_, ?_, ?_⟩
  · rw [hbranch, htake]
    exact length_fallbackLessons _ _
  · rw [hbranch, htake]
    exact map_fst_fallbackLessons _ _
  · rw [hbranch, htake]
    exact flatten_pyWords_fallbackLessons _ m hm hwf

theorem claim_C6_witness :
    (parse_lessons ("one two three four five six seven".toList) 3).length = 3 :=
  (claim_C6 ("one two three four five six seven".toList) 3 (by decide)
    (by decide) (by decide)).1

/-! ## ScheduleProjector -/

/-- C7: for every non-empty lesson list and anchor, the `k`-th scheduled
lesson (0-indexed) receives `anchor + k * week`; adjacent timestamps
differ by exactly one week and are strictly increasing; and every
timestamp shares the anchor's wall-clock time-of-day (its residue modulo
one day). -/
theorem claim_C7 (t0 hh mm : Nat) (lessons : List (List Char × List Char))
    (hne : lessons ≠ []) :
    (scheduleEvents (replaceTime t0 hh mm) lessons).map Prod.snd
      = (List.range lessons.length).map
          (fun k => replaceTime t0 hh mm + k * weekMinutes) ∧
    (∀ i, i + 1 < lessons.length →
      ((scheduleEvents (replaceTime t0 hh mm) lessons).map Prod.snd).getD (i + 1) 0
        = ((scheduleEvents (replaceTime t0 hh mm) lessons).map Prod.snd).getD i 0
            + weekMinutes ∧
      ((scheduleEvents (replaceTime t0 hh mm) lessons).map Prod.snd).getD i 0
        < ((scheduleEvents (replaceTime t0 hh mm) lessons).map Prod.snd).getD
            (i + 1) 0) ∧
    (∀ v ∈ (scheduleEvents (replaceTime t0 hh mm) lessons).map Prod.snd,
      v % minutesPerDay = replaceTime t0 hh mm % minutesPerDay) := by
  have _ := hne
  have h1 : (scheduleEvents (replaceTime t0 hh mm) lessons).map Prod.snd
      = (List.range lessons.length).map
          (fun k => replaceTime t0 hh mm + k * weekMinutes) := by
    unfold scheduleEvents
    rw [List.map_map]
    have hcomp : (Prod.snd ∘ fun p : Nat × (List Char × List Char) =>
        (p.2, replaceTime t0 hh mm + p.1 * weekMinutes))
        = (fun k => replaceTime t0 hh mm + k * weekMinutes) ∘ Prod.fst := rfl
    rw [hcomp, ← List.map_map, List.enum_map_fst]
  have key : ∀ j, j < lessons.length →
      ((scheduleEvents (replaceTime t0 hh mm) lessons).map Prod.snd).getD j 0
        = replaceTime t0 hh mm + j * weekMinutes := by
    intro j hj
    rw [h1, List.getD_eq_getElem?_getD, List.getElem?_map,
      List.getElem?_range hj]
    rfl
  refine ⟨h1, ?_, ?_⟩
  · intro i hi
    rw [key i (by omega), key (i + 1) hi]
    constructor
    · rw [Nat.succ_mul, ← Nat.add_assoc]
    · rw [Nat.succ_mul, ← Nat.add_assoc]
      exact Nat.lt_add_of_pos_right (by decide)
  · intro v hv
    rw [h1, List.mem_map] at hv
    obtain ⟨k, _, rfl⟩ := hv
    show (replaceTime t0 hh mm + k * weekMinutes) % minutesPerDay
      = replaceTime t0 hh mm % minutesPerDay
    rw [show weekMinutes = 7 * minutesPerDay from rfl, ← Nat.mul_assoc]
    exact Nat.add_mul_mod_self_right _ _ _

theorem claim_C7_witness :
    (scheduleEvents (replaceTime 0 9 0) [(['a'], ['b'])]).map Prod.snd
      = (List.range 1).map (fun k => replaceTime 0 9 0 + k * weekMinutes) :=
  (claim_C7 0 9 0 [(['a'], ['b'])] (by simp)).1

/-! ## ArtifactLocator: directory sweep -/

/-- Within one directory of the walk, an exactly-named file always wins,
whatever was tentatively picked before it. -/
theorem pickInDir_mem (expected root : List Char) :
    ∀ files : List (List Char), expected ∈ files →
      ∀ acc, pickInDir expected root files acc = some (joinPath root expected) := by
  intro files
  induction files with
  | nil => intro h; exact absurd h (List.not_mem_nil _)
  | cons f fs ih =>
      intro h acc
      by_cases hf : f = expected
      · subst hf
        simp [pickInDir]
      · have hmem : expected ∈ fs := by
          rcases List.mem_cons.mp h with h1 | h2
          · exact absurd h1.symm hf
          · exact h2
        cases hp : lowerPdfSuffix f
        · simp only [pickInDir, if_neg hf, hp, Bool.false_eq_true, if_false]
          exact ih hmem acc
        · simp only [pickInDir, if_neg hf, hp, if_true]
          exact ih hmem _

/-- C8, counterexample: the walk `walkC8` contains the exactly-named
`syllabus.pdf` (in its second directory), yet the sweep resolves to
`other.pdf` from the first directory: the outer loop breaks at the first
directory that yields any candidate, so the exact-name preference does not
extend across directories. -/
theorem claim_C8_counterexample :
    sweep ("syllabus.pdf".toList) walkC8
      = some ("/downloads/a/other.pdf".toList) ∧
    (∃ d ∈ walkC8, "syllabus.pdf".toList ∈ d.2) ∧
    ¬ sweep ("syllabus.pdf".toList) walkC8
        = some (joinPath ("/downloads/b".toList) ("syllabus.pdf".toList)) := by
  refine ⟨by decide, by decide, by decide⟩

/-- C8, amended: the exact-name preference holds within a directory: if
the first directory of the walk that yields any candidate (exact name or
`.pdf` extension) contains a file named exactly `expected`, the sweep
resolves to that exactly-named file rather than to another
extension-matching file; an exactly-named file in a later directory is
not preferred over an earlier directory's extension match. -/
theorem claim_C8 (expected root : List Char) (files : List (List Char))
    (pre post : List (List Char × List (List Char)))
    (hpre : ∀ d ∈ pre, pickInDir expected d.1 d.2 Option.none = Option.none)
    (hmem : expected ∈ files) :
    sweep expected (pre ++ (root, files) :: post)
      = some (joinPath root expected) := by
  induction pre with
  | nil =>
      show sweep expected ((root, files) :: post) = _
      simp only [sweep]
      rw [pickInDir_mem expected root files hmem Option.none]
  | cons d pre ih =>
      obtain ⟨r, fl⟩ := d
      show sweep expected ((r, fl) :: (pre ++ (root, files) :: post)) = _
      simp only [sweep]
      rw [hpre (r, fl) (List.mem_cons_self _ _)]
      exact ih (fun d hd => hpre d (List.mem_cons_of_mem _ hd))

theorem claim_C8_witness :
    sweep ("syllabus.pdf".toList)
        [("/t".toList, ["a.pdf".toList, "syllabus.pdf".toList])]
      = some (joinPath ("/t".toList) ("syllabus.pdf".toList)) :=
  claim_C8 ("syllabus.pdf".toList) ("/t".toList)
    ["a.pdf".toList, "syllabus.pdf".toList] [] []
    (fun d hd => absurd hd (List.not_mem_nil d)) (by decide)

/-! ## Per-item downstream writes -/

theorem map_fst_runPerItemWrites
    (call : List Char × List Char → List (List Char × PyVal)) :
    ∀ ls, (runPerItemWrites call ls).map Prod.fst = ls := by
  intro ls
  induction ls with
  | nil => rfl
  | cons l ls ih => simp [runPerItemWrites, ih]

/-- C9: a failed per-item downstream write does not abort the run — even
when some lesson's write returns `ok: False`, the loop still performs one
write per lesson, in order (neither per-item loop breaks or returns on
failure; the `ok` check only selects a log message). -/
theorem claim_C9
    (call : List Char × List Char → List (List Char × PyVal))
    (lessons : List (List Char × List Char))
    (h : ∃ l ∈ lessons, dGet (call l) okKey = some (PyVal.bool false)) :
    (runPerItemWrites call lessons).map Prod.fst = lessons := by
  have _ := h
  exact map_fst_runPerItemWrites call lessons

theorem claim_C9_witness :
    (runPerItemWrites
        (fun _ => mkResult (PyVal.bool false) PyVal.none (PyVal.str ['x']))
        [(['a'], ['b']), (['c'], ['d'])]).map Prod.fst
      = [(['a'], ['b']), (['c'], ['d'])] :=
  claim_C9 _ _ ⟨(['a'], ['b']), List.mem_cons_self _ _, rfl⟩
